import Mathlib

/-!
Verification of the KOSMOS-2 processing module
(`transformers/models/kosmos2/processing_kosmos2.py`).

Texts are modelled as `List Char`; the continuous coordinates of bounding
boxes are modelled as rationals (`ℚ`), with Python's `math.floor` /
`math.ceil` becoming `Int.floor` / `Int.ceil`.  Python integer division and
modulo on the (nonnegative) patch indices become `Nat` division and modulo.
-/

namespace Kosmos2

/-! ## Coordinate quantizer -/

/-- `coordinate_to_patch_index(bbox, num_patches_per_side)`: quantizes a
continuous bounding box `(x1, y1, x2, y2)` to a pair of linear patch
indices `(ul_idx, lr_idx)`. -/
def coordinate_to_patch_index : ℚ × ℚ × ℚ × ℚ → ℕ → ℤ × ℤ
  | (x1, y1, x2, y2), num_patches_per_side =>
    let ul_x : ℤ := ⌊x1 * num_patches_per_side⌋
    let ul_y : ℤ := ⌊y1 * num_patches_per_side⌋
    let lr_x : ℤ := ⌈x2 * num_patches_per_side - 1⌉
    let lr_y : ℤ := ⌈y2 * num_patches_per_side - 1⌉
    (ul_y * num_patches_per_side + ul_x, lr_y * num_patches_per_side + lr_x)

/-- `patch_index_to_coordinate(ul_idx, lr_idx, num_patches_per_side)`:
recovers normalized coordinates from a pair of patch indices (lossy). -/
def patch_index_to_coordinate (ul_idx lr_idx : ℕ) (num_patches_per_side : ℕ) :
    ℚ × ℚ × ℚ × ℚ :=
  let cell_size : ℚ := 1 / num_patches_per_side
  let ul_x := ul_idx % num_patches_per_side
  let ul_y := ul_idx / num_patches_per_side
  let lr_x := lr_idx % num_patches_per_side
  let lr_y := lr_idx / num_patches_per_side
  if ul_idx = lr_idx then
    (ul_x * cell_size, ul_y * cell_size, lr_x * cell_size + cell_size, lr_y * cell_size + cell_size)
  else if ul_x = lr_x ∨ ul_y = lr_y then
    (ul_x * cell_size, ul_y * cell_size, lr_x * cell_size + cell_size, lr_y * cell_size + cell_size)
  else
    (ul_x * cell_size + cell_size / 2, ul_y * cell_size + cell_size / 2,
     lr_x * cell_size + cell_size / 2, lr_y * cell_size + cell_size / 2)

/-! ## Python string helpers

Python's `str.strip` family strips the ASCII whitespace characters
(we model the ASCII subset of Python's `str.isspace`). -/

/-- The ASCII whitespace characters recognized by Python `str.strip()`. -/
def pyIsspace (c : Char) : Bool :=
  c = ' ' || c = '\t' || c = '\n' || c = '\r' || c = '\x0B' || c = '\x0C'

/-- Python `s.lstrip()`. -/
def pyLstrip (s : List Char) : List Char := s.dropWhile pyIsspace

/-- Python `s.rstrip()`. -/
def pyRstrip (s : List Char) : List Char := (s.reverse.dropWhile pyIsspace).reverse

/-- Python `s.strip()`. -/
def pyStrip (s : List Char) : List Char := pyRstrip (pyLstrip s)

/-- Decimal digits of a natural number (Python `str(n)` for `n ≥ 0`),
accumulator/fuel based. -/
def natDigitsGo : ℕ → ℕ → List Char → List Char
  | 0, _, acc => acc
  | fuel + 1, n, acc =>
    let d := Char.ofNat (48 + n % 10)
    if n < 10 then d :: acc else natDigitsGo fuel (n / 10) (d :: acc)

/-- Python `str(n)` for a natural number. -/
def natDigits (n : ℕ) : List Char := natDigitsGo (n + 1) n []

/-- Python `str(n).zfill(4)`: left-pad the decimal digits with zeros to
(at least) four characters. -/
def zfill4 (n : ℕ) : List Char :=
  let d := natDigits n
  List.replicate (4 - d.length) '0' ++ d

/-- The value of a (nonempty) list of decimal digit characters, as read by
Python `int(...)`. -/
def digitsToNat (ds : List Char) : ℕ :=
  ds.foldl (fun n c => 10 * n + (c.toNat - 48)) 0

/-! ## Tag literals

Tag-token strings used by the processor.  The delimiter, phrase, object and
patch-index literals appear verbatim in `processing_kosmos2.py`. -/

def openPhraseT : List Char := "<phrase>".toList
def closePhraseT : List Char := "</phrase>".toList
def openObjectT : List Char := "<object>".toList
def closeObjectT : List Char := "</object>".toList
def delimiterT : List Char := "</delimiter_of_multi_objects/>".toList
def openPatchT : List Char := "<patch_index_".toList

/-- The literal `<patch_index_dddd>` token for index `n` (zero-padded to 4
digits), as built by `_convert_bbox_to_patch_index_tokens`. -/
def patchIndexToken (n : ℕ) : List Char := openPatchT ++ zfill4 n ++ ['>']

/-! ## remove_special_fields -/

/-- Scan for the closing `>` of a `<...>` run: Python regex `<.*?>` where
`.` does not match a newline.  Returns the rest after the first `>` if one
occurs before any newline, else `none`. -/
def tagEnd : List Char → Option (List Char)
  | [] => none
  | c :: rest =>
    if c = '>' then some rest
    else if c = '\n' then none
    else tagEnd rest

/-- Fueled scanner for `re.sub("<.*?>", "", text)`. -/
def removeSpecialFieldsGo : ℕ → List Char → List Char
  | 0, s => s
  | _ + 1, [] => []
  | fuel + 1, c :: rest =>
    if c = '<' then
      match tagEnd rest with
      | some rest2 => removeSpecialFieldsGo fuel rest2
      | none => c :: removeSpecialFieldsGo fuel rest
    else c :: removeSpecialFieldsGo fuel rest

/-- `remove_special_fields(text)`: strips every minimal `<...>` run
(Python `re.sub("<.*?>", "", text)`). -/
def remove_special_fields (s : List Char) : List Char :=
  removeSpecialFieldsGo s.length s

/-- `adjust_entity_positions(entity, text)`: recomputes the span of an
entity by measuring tag-stripped prefixes of the raw text. -/
def adjust_entity_positions (entity : List Char × (ℕ × ℕ)) (text : List Char) :
    List Char × (ℕ × ℕ) :=
  let (entity_name, (start, stop)) := entity
  (entity_name,
    ((remove_special_fields (text.take start)).length,
     (remove_special_fields (text.take stop)).length))

/-! ## Entity extraction (`extract_entities_with_patch_indices`) -/

/-- An extracted entity: name, character span, and patch-index box pairs. -/
abbrev Entity := List Char × (ℕ × ℕ) × List (ℕ × ℕ)

/-- Parse `<phrase>([^<]+)</phrase>` at the head of `s`; returns the
(greedy, nonempty, `<`-free) content and the rest. -/
def parsePhrase (s : List Char) : Option (List Char × List Char) :=
  if openPhraseT.isPrefixOf s then
    let s2 := s.drop openPhraseT.length
    let content := s2.takeWhile (fun c => c ≠ '<')
    if content.isEmpty then none
    else
      let s3 := s2.drop content.length
      if closePhraseT.isPrefixOf s3 then some (content, s3.drop closePhraseT.length)
      else none
  else none

/-- Parse one `<patch_index_(\d+)>` token at the head of `s`; returns the
digit value and the rest. -/
def parsePatchToken (s : List Char) : Option (ℕ × List Char) :=
  if openPatchT.isPrefixOf s then
    let s2 := s.drop openPatchT.length
    let ds := s2.takeWhile Char.isDigit
    if ds.isEmpty then none
    else
      match s2.drop ds.length with
      | '>' :: rest => some (digitsToNat ds, rest)
      | _ => none
  else none

/-- Parse two consecutive patch-index tokens (one "pair"); returns the rest. -/
def parsePairTokens (s : List Char) : Option (List Char) :=
  match parsePatchToken s with
  | some (_, r1) =>
    match parsePatchToken r1 with
    | some (_, r2) => some r2
    | none => none
  | none => none

/-- Parse `pair (</delimiter_of_multi_objects/> pair)*` (the content of an
`<object>` block); fueled; returns the rest after the chain. -/
def parsePairsChain : ℕ → List Char → Option (List Char)
  | 0, _ => none
  | fuel + 1, s =>
    match parsePairTokens s with
    | none => none
    | some r =>
      if delimiterT.isPrefixOf r then
        match parsePairsChain fuel (r.drop delimiterT.length) with
        | some r2 => some r2
        | none => none
      else some r

/-- Parse `<object>(content)</object>` at the head of `s`, where `content`
is a chain of patch-index pairs; returns the raw content substring (group 3
of the extraction regex) and the rest. -/
def parseObject (s : List Char) : Option (List Char × List Char) :=
  if openObjectT.isPrefixOf s then
    let s2 := s.drop openObjectT.length
    match parsePairsChain (s2.length + 1) s2 with
    | some r =>
      if closeObjectT.isPrefixOf r then
        some (s2.take (s2.length - r.length), r.drop closeObjectT.length)
      else none
    | none => none
  else none

/-- Python `s.split(sep)` for a nonempty separator, fueled scanner. -/
def pySplitSepGo (sep : List Char) : ℕ → List Char → List Char → List (List Char)
  | 0, acc, s => [acc.reverse ++ s]
  | fuel + 1, acc, s =>
    if sep.isPrefixOf s && !sep.isEmpty && !s.isEmpty then
      acc.reverse :: pySplitSepGo sep fuel [] (s.drop sep.length)
    else
      match s with
      | [] => [acc.reverse]
      | c :: r => pySplitSepGo sep fuel (c :: acc) r

/-- Python `s.split(sep)` (nonempty separator). -/
def pySplitSep (sep s : List Char) : List (List Char) :=
  pySplitSepGo sep (s.length + 1) [] s

/-- `re.search(r"<patch_index_(\d+)>", s)`: value of the first patch-index
token occurring anywhere in `s`. -/
def searchPatchIndex : List Char → Option ℕ
  | [] => none
  | c :: rest =>
    match parsePatchToken (c :: rest) with
    | some (v, _) => some v
    | none => searchPatchIndex rest

/-- Per-pair bbox extraction: the first patch-index value in `pair` and the
first patch-index value in `pair[1:]` (as in the source's two
`re.search` calls); `none` when either search fails. -/
def pairToBbox (pair : List Char) : Option (ℕ × ℕ) :=
  match searchPatchIndex pair, searchPatchIndex (pair.drop 1) with
  | some x, some y => some (x, y)
  | _, _ => none

/-- The fallback entity name for an ungrounded box pair:
`f"<patch_index_{x}><patch_index_{y}>"` (unpadded decimal rendering). -/
def patchPairName (bbox : ℕ × ℕ) : List Char :=
  openPatchT ++ natDigits bbox.1 ++ ['>'] ++ openPatchT ++ natDigits bbox.2 ++ ['>']

/-- Loop body of `extract_entities_with_patch_indices` for one regex match:
split the object content on the delimiter, extract the box pairs, then emit
either a single named entity (phrase present) or one entity per pair
(bare `<object>` block). -/
def processMatch (phrase : Option (List Char)) (span : ℕ × ℕ) (match_content : List Char) :
    List Entity :=
  let patch_index_pairs := pySplitSep delimiterT match_content
  let entity_bboxes := patch_index_pairs.filterMap pairToBbox
  match phrase with
  | some ph => [(ph, span, entity_bboxes)]
  | none => entity_bboxes.map (fun bbox => (patchPairName bbox, span, [bbox]))

/-- Fueled scanner for the extraction regex
`(?:(<phrase>([^<]+)</phrase>))?<object>(pairs)</object>`:
left-to-right, non-overlapping, continuing after each match.
`pos` is the character position of the current suffix `s` in the whole
text (used for reported spans). -/
def extractGo : ℕ → ℕ → List Char → List Entity
  | 0, _, _ => []
  | fuel + 1, pos, s =>
    match parsePhrase s with
    | some (content, r1) =>
      match parseObject r1 with
      | some (ocontent, rest) =>
        let spanStart := pos + openPhraseT.length
        processMatch (some content) (spanStart, spanStart + content.length) ocontent ++
          extractGo fuel (pos + (s.length - rest.length)) rest
      | none =>
        match s with
        | [] => []
        | _ :: r => extractGo fuel (pos + 1) r
    | none =>
      match parseObject s with
      | some (ocontent, rest) =>
        processMatch none (pos, pos) ocontent ++
          extractGo fuel (pos + (s.length - rest.length)) rest
      | none =>
        match s with
        | [] => []
        | _ :: r => extractGo fuel (pos + 1) r

/-- `extract_entities_with_patch_indices(text)`. -/
def extract_entities_with_patch_indices (text : List Char) : List Entity :=
  extractGo (text.length + 1) 0 text

/-! ## clean_text_and_extract_entities_with_bboxes -/

/-- A decoded entity: name, (possibly shifted) span, coordinate boxes. -/
abbrev CoordEntity := List Char × (ℤ × ℤ) × List (ℚ × ℚ × ℚ × ℚ)

/-- The inner `cleanup_spaces` of `clean_text_and_extract_entities_with_bboxes`:
strip the processed text, then shift every span by the removed leading
whitespace and by each entity name's own leading/trailing whitespace. -/
def cleanup_spaces (text : List Char)
    (entities : List (List Char × (ℕ × ℕ) × List (ℚ × ℚ × ℚ × ℚ))) :
    List Char × List CoordEntity :=
  let new_text := pyStrip text
  let leading_spaces := text.length - (pyLstrip text).length
  let new_entities := entities.map (fun e =>
    let entity_name := e.1
    let start := e.2.1.1
    let stop := e.2.1.2
    let bboxes := e.2.2
    let lead := entity_name.length - (pyLstrip entity_name).length
    let trail := entity_name.length - (pyRstrip entity_name).length
    (pyStrip entity_name,
      ((start : ℤ) - leading_spaces + lead, (stop : ℤ) - leading_spaces - trail),
      bboxes))
  (new_text, new_entities)

/-- `clean_text_and_extract_entities_with_bboxes(text, num_patches_per_side)`. -/
def clean_text_and_extract_entities_with_bboxes (text : List Char)
    (num_patches_per_side : ℕ := 32) : List Char × List CoordEntity :=
  let processed_text := remove_special_fields text
  let entities_with_patch_indices := extract_entities_with_patch_indices text
  let entities := entities_with_patch_indices.map (fun e =>
    let adjusted := adjust_entity_positions (e.1, e.2.1) text
    (adjusted.1, adjusted.2,
      e.2.2.map (fun b => patch_index_to_coordinate b.1 b.2 num_patches_per_side)))
  cleanup_spaces processed_text entities

/-- Does some suffix of `s` begin a complete
`<object> pair (delimiter pair)* </object>` block (the mandatory part of
the extraction regex)?  A dangling or truncated `<object>` opener with no
well-formed pair chain and closing tag does not count. -/
def hasObjectBlock : List Char → Bool
  | [] => (parseObject []).isSome
  | c :: r => (parseObject (c :: r)).isSome || hasObjectBlock r

/-! ## Tag spacing normalizer (`_add_remove_spaces_around_tag_tokens`) -/

/-- First matching tag of the vocabulary at the head of `s` (Python's regex
alternation tries the alternatives in pattern order); empty tags are
skipped so that every match consumes at least one character. -/
def findTagAt (V : List (List Char)) (s : List Char) : Option (List Char) :=
  V.find? fun t => !t.isEmpty && t.isPrefixOf s

/-- Structured scanner for `re.split(rf"({pattern})", text)`: returns the
fragment before the first tag occurrence and the list of
(tag, following fragment) chunks.  Fueled; `fuel ≥ s.length` suffices. -/
def splitTagsGo (V : List (List Char)) : ℕ → List Char → List Char →
    List Char × List (List Char × List Char)
  | 0, acc, s => (acc.reverse ++ s, [])
  | fuel + 1, acc, s =>
    match findTagAt V s with
    | some t =>
      let p := splitTagsGo V fuel [] (s.drop t.length)
      (acc.reverse, (t, p.1) :: p.2)
    | none =>
      match s with
      | [] => (acc.reverse, [])
      | c :: r => splitTagsGo V fuel (c :: acc) r

/-- The structured split of `text` on the tag vocabulary `V`. -/
def splitTags (V : List (List Char)) (s : List Char) :
    List Char × List (List Char × List Char) :=
  splitTagsGo V s.length [] s

/-- Flatten the structured split into the `re.split` result list
(fragment, tag, fragment, tag, ..., fragment). -/
def toFlat (p : List Char × List (List Char × List Char)) : List (List Char) :=
  p.1 :: (p.2.map fun q => [q.1, q.2]).flatten

/-- Drop the first split when it is the empty fragment. -/
def dropLeadingEmpty : List (List Char) → List (List Char)
  | [] :: rest => rest
  | l => l

/-- Drop the last split when it is the empty fragment. -/
def dropTrailingEmpty (l : List (List Char)) : List (List Char) :=
  match l.getLast? with
  | some [] => l.dropLast
  | _ => l

/-- Drop an empty leading fragment and an empty trailing fragment (the
source keeps a split only if not (`idx in [0, len(splits)-1]` and the split
is empty)). -/
def dropEdgeEmpty (l : List (List Char)) : List (List Char) :=
  dropTrailingEmpty (dropLeadingEmpty l)

/-- The output-rebuilding loop of `_add_remove_spaces_around_tag_tokens`:
when appending a tag, strip trailing whitespace accumulated so far; when
appending a non-tag fragment right after a tag that does not already start
with a space, insert one space. -/
def rebuildGo (V : List (List Char)) : List Char → Bool → List (List Char) → List Char
  | output, _, [] => output
  | output, prev, split :: rest =>
    if split ∈ V then rebuildGo V (pyRstrip output ++ split) true rest
    else
      if prev && !(split.head? == some ' ') then rebuildGo V (output ++ ' ' :: split) false rest
      else rebuildGo V (output ++ split) false rest

/-- `_add_remove_spaces_around_tag_tokens(text)` over the tag vocabulary
`V`. -/
def add_remove_spaces_around_tag_tokens (V : List (List Char)) (text : List Char) : List Char :=
  rebuildGo V [] false (dropEdgeEmpty (toFlat (splitTags V text)))

/-- Modelled from the spec: the tokenizer's fixed literal set of
tag-vocabulary strings (`tokenizer.tag_tokens`), whose defining module is
not part of this repository slice; §2 and the glossary list the grounding
delimiter tags, §4.5/§6 the image-boundary tags consumed by the
preprocessing step. -/
def tagTokensBase : List (List Char) :=
  ["<grounding>".toList, "<phrase>".toList, "</phrase>".toList,
   "<object>".toList, "</object>".toList, "</delimiter_of_multi_objects/>".toList,
   "<image>".toList, "</image>".toList]

/-- The vocabulary used by the normalizer: `tag_tokens` plus all
`<patch_index_dddd>` tokens (`num_patch_index_tokens` of them). -/
def fullTagVocab (num_patch_index_tokens : ℕ) : List (List Char) :=
  tagTokensBase ++ (List.range num_patch_index_tokens).map patchIndexToken

/-! ## Proof-layer notions for the normalizer -/

/-- The continuation shapes that can follow a fragment or a tag in a
normalized string: nothing, a space, or the `<` opening a tag. -/
def ContOk (r : List Char) : Prop :=
  r = [] ∨ r.head? = some ' ' ∨ r.head? = some '<'

/-- A well-behaved tag vocabulary: every tag starts with `<`, contains `<`
nowhere else, and contains no whitespace.  The processor's real vocabulary
satisfies this. -/
def GoodVocab (V : List (List Char)) : Prop :=
  ∀ t ∈ V, t.head? = some '<' ∧ (∀ c ∈ t.tail, c ≠ '<') ∧ ∀ c ∈ t, pyIsspace c = false

/-- `g` contains no occurrence of a vocabulary tag. -/
def CleanFrag (V : List (List Char)) (g : List Char) : Prop :=
  ∀ j, ∀ t ∈ V, t ≠ [] → ¬ t <+: g.drop j

/-- Scanning through `f` (with continuation `rest`) matches no tag. -/
def NoTagStart (V : List (List Char)) (f rest : List Char) : Prop :=
  ∀ j < f.length, findTagAt V (f.drop j ++ rest) = none

/-- `t` is found (first) by the alternation at the head of `t ++ r`, for
every normalized continuation `r`. -/
def FirstTagStable (V : List (List Char)) (t : List Char) : Prop :=
  ∀ r, ContOk r → findTagAt V (t ++ r) = some t

/-- The fragment as the rebuild loop appends it right after a tag. -/
def spaced (f : List Char) : List Char :=
  if f.head? == some ' ' then f else ' ' :: f

/-- An interior fragment after normalization: spaced, then right-stripped
by the following tag append. -/
def normFrag (f : List Char) : List Char := pyRstrip (spaced f)

/-- Concatenation of (tag, fragment) chunks. -/
def flatStr (L : List (List Char × List Char)) : List Char :=
  (L.map fun q => q.1 ++ q.2).flatten

/-- The `re.split` tail of the structured chunks. -/
def flat2 (L : List (List Char × List Char)) : List (List Char) :=
  (L.map fun q => [q.1, q.2]).flatten

/-- The chunk tail after the edge filter (the trailing fragment is dropped
when empty). -/
def flatFilt : List (List Char × List Char) → List (List Char)
  | [] => []
  | [(t, g)] => if g = [] then [t] else [t, g]
  | (t, g) :: L => t :: g :: flatFilt L

/-- Chunkwise normalization: interior fragments are spaced and
right-stripped; the final fragment is spaced unless empty. -/
def normChunks : List (List Char × List Char) → List (List Char × List Char)
  | [] => []
  | [(t, g)] => [(t, if g = [] then [] else spaced g)]
  | (t, g) :: L => (t, normFrag g) :: normChunks L

/-- The normalizer's output in terms of the structured split. -/
def normOutput (p : List Char × List (List Char × List Char)) : List Char :=
  match p.2 with
  | [] => p.1
  | _ => pyRstrip p.1 ++ flatStr (normChunks p.2)

/-- The chunk-side invariants needed to re-split a normalized string. -/
def ChunksOK (V : List (List Char)) (L : List (List Char × List Char)) : Prop :=
  ∀ q ∈ L, FirstTagStable V q.1 ∧ CleanFrag V q.2 ∧ (q.2 = [] ∨ q.2.head? = some ' ')

/-- The last character of `a`, when it exists, is not whitespace. -/
def LastNonWS (a : List Char) : Prop :=
  ∀ c, a.getLast? = some c → pyIsspace c = false


/-! ## Phrase/bbox inserter (`_insert_patch_index_tokens`) -/

/-- A bounding box passed to the inserter: an already-quantized patch-index
pair (2-int tuple) or normalized coordinates (4-float tuple). -/
inductive BboxElt
  | pair (i j : ℕ)
  | coords (x1 y1 x2 y2 : ℚ)
deriving DecidableEq

/-- The bboxes aligned with one `<phrase> ... </phrase>` pair: `None`, a
single box tuple, or a list of boxes. -/
inductive BboxGroup
  | none
  | single (b : BboxElt)
  | many (bs : List BboxElt)
deriving DecidableEq

/-- Python `str(n)` for an integer (minus sign for negatives). -/
def pyIntStr (n : ℤ) : List Char :=
  if n < 0 then '-' :: natDigits n.natAbs else natDigits n.toNat

/-- Python `str(n).zfill(4)` for an integer: the sign stays in front and
counts toward the width. -/
def zfill4Int (n : ℤ) : List Char :=
  if n < 0 then '-' :: (List.replicate (3 - (natDigits n.natAbs).length) '0' ++ natDigits n.natAbs)
  else zfill4 n.toNat

/-- The `<patch_index_...>` token for a (possibly negative) index. -/
def patchIndexTokenInt (n : ℤ) : List Char := openPatchT ++ zfill4Int n ++ ['>']

/-- `_convert_bbox_to_patch_index_tokens`: a 2-int tuple is used directly;
a 4-float tuple is quantized with
`num_patches_per_side = isqrt(num_patch_index_tokens)`. -/
def convert_bbox_to_patch_index_tokens (num_patches_per_side : ℕ) :
    BboxElt → List Char × List Char
  | BboxElt.pair i j => (patchIndexToken i, patchIndexToken j)
  | BboxElt.coords x1 y1 x2 y2 =>
    let p := coordinate_to_patch_index (x1, y1, x2, y2) num_patches_per_side
    (patchIndexTokenInt p.1, patchIndexTokenInt p.2)

/-- Minimal-content scan for the non-greedy `.+?</phrase>`: accumulate
non-newline characters (at least one) until `</phrase>` follows. -/
def phraseContentGo : List Char → List Char → Option (List Char × List Char)
  | _, [] => Option.none
  | acc, c :: r =>
    if !acc.isEmpty && closePhraseT.isPrefixOf (c :: r) then
      some (acc.reverse, (c :: r).drop closePhraseT.length)
    else if c = '\n' then Option.none
    else phraseContentGo (c :: acc) r

/-- Fueled scanner for `re.finditer(r"<phrase>.+?</phrase>", text)`:
returns the segments `text[curr_pos:end]` (the verbatim text up to and
including each match's closing tag, as buffered by the source) and the
remaining tail after the last match. -/
def findPhrasesGo : ℕ → List Char → List Char → List (List Char) × List Char
  | 0, acc, s => ([], acc.reverse ++ s)
  | fuel + 1, acc, s =>
    if openPhraseT.isPrefixOf s then
      match phraseContentGo [] (s.drop openPhraseT.length) with
      | some (content, rest) =>
        let p := findPhrasesGo fuel [] rest
        ((acc.reverse ++ openPhraseT ++ content ++ closePhraseT) :: p.1, p.2)
      | Option.none =>
        match s with
        | [] => ([], acc.reverse)
        | c :: r => findPhrasesGo fuel (c :: acc) r
    else
      match s with
      | [] => ([], acc.reverse)
      | c :: r => findPhrasesGo fuel (c :: acc) r

/-- The `<phrase>...</phrase>` matches of a text, as (segment) pieces plus
the remaining tail. -/
def findPhraseSegments (text : List Char) : List (List Char) × List Char :=
  findPhrasesGo text.length [] text

/-- The `<object> ... </object>` insertion for one list of boxes (joined
with the delimiter); empty when the list is empty. -/
def objectBlock (num_patches_per_side : ℕ) (bs : List BboxElt) : List Char :=
  let patch_index_strings := bs.map (fun b =>
    let p := convert_bbox_to_patch_index_tokens num_patches_per_side b
    p.1 ++ ' ' :: p.2)
  if patch_index_strings.isEmpty then []
  else
    let position_str := List.intercalate " </delimiter_of_multi_objects/> ".toList patch_index_strings
    "<object> ".toList ++ position_str ++ " </object>".toList

/-- What gets emitted after a phrase for its aligned bbox group (`None`
gives nothing; a single tuple is wrapped into a one-element list). -/
def groupInsertion (num_patches_per_side : ℕ) : BboxGroup → List Char
  | BboxGroup.none => []
  | BboxGroup.single b => objectBlock num_patches_per_side [b]
  | BboxGroup.many bs => objectBlock num_patches_per_side bs

/-- `_insert_patch_index_tokens(text, bboxes)`: `None` or empty `bboxes`
returns the text unchanged; otherwise the number of `<phrase>...</phrase>`
matches must equal the number of bbox groups (else `ValueError`), and each
group's object block is inserted after its phrase's closing tag. -/
def insert_patch_index_tokens (num_patches_per_side : ℕ) (text : List Char)
    (bboxes : Option (List BboxGroup)) : Except (List Char) (List Char) :=
  match bboxes with
  | Option.none => Except.ok text
  | Option.some bs =>
    if bs.length = 0 then Except.ok text
    else
      let p := findPhraseSegments text
      if p.1.length ≠ bs.length then
        Except.error "count mismatch between phrase pairs and bboxes".toList
      else
        Except.ok (((p.1.zip bs).map
          (fun q => q.1 ++ groupInsertion num_patches_per_side q.2)).flatten ++ p.2)

/-! ## Image-token expansion step of `Kosmos2Processor.__call__` -/

/-- The image-token expansion of `__call__` for a single (un-batched) id
sequence: replace the `num_image_tokens` ids at positions
`start_index .. start_index + num_image_tokens - 1` (where
`start_index = int(with_bos) + 1`) with the consecutive range starting at
`first_image_token_id`, and build the `image_features_mask` (`0`/`1` as in
the source; the spec reads them as booleans). -/
def expand_image_tokens (text_ids : List ℕ) (num_image_tokens first_image_token_id : ℕ)
    (with_bos : Bool) : List ℕ × List ℕ :=
  let start_index := (if with_bos then 1 else 0) + 1
  let image_token_ids := (List.range num_image_tokens).map (fun k => first_image_token_id + k)
  let base_image_features_mask := [0] ++ List.replicate num_image_tokens 1 ++ [0]
  let new_ids := text_ids.take start_index ++ image_token_ids ++
    text_ids.drop (start_index + num_image_tokens)
  let mask0 := if with_bos then 0 :: base_image_features_mask else base_image_features_mask
  let mask := mask0 ++ List.replicate (new_ids.length - mask0.length) 0
  (new_ids, mask)

/-! ## Concrete data for the encode/extract round-trip property -/

/-- The round-trip example text. -/
def c1text : List Char := "<phrase>cat</phrase> and <phrase>dog</phrase>".toList

/-- The round-trip example bbox groups `[[(3,3)], [(10,12),(5,5)]]`. -/
def c1groups : List BboxGroup :=
  [BboxGroup.many [BboxElt.pair 3 3], BboxGroup.many [BboxElt.pair 10 12, BboxElt.pair 5 5]]

/-- The encoding pipeline followed by extraction: insert patch-index
tokens, normalize tag spacing (over the tag vocabulary with
`num_patch_index_tokens` patch tokens), then extract entities; `none` when
the inserter raised. -/
def encode_pipeline_entities (num_patches_per_side num_patch_index_tokens : ℕ)
    (text : List Char) (bboxes : Option (List BboxGroup)) : Option (List Entity) :=
  (insert_patch_index_tokens num_patches_per_side text bboxes).toOption.map
    (fun t => extract_entities_with_patch_indices
      (add_remove_spaces_around_tag_tokens (fullTagVocab num_patch_index_tokens) t))

/-! ## Basic bridging lemmas -/

/-- Boolean prefix test agrees with the `<+:` relation. -/
theorem isPrefixOf_eq_true_iff {l₁ l₂ : List Char} : l₁.isPrefixOf l₂ = true ↔ l₁ <+: l₂ := by
  exact List.isPrefixOf_iff_prefix

/-- If no suffix of `s` begins a complete object block, `parseObject`
fails at every position of `s`. -/
theorem parseObject_none_of_no_block :
    ∀ {s : List Char}, hasObjectBlock s = false →
      ∀ i, parseObject (s.drop i) = none := by
  intro s
  induction s with
  | nil =>
    intro h i
    rw [List.drop_nil]
    rw [hasObjectBlock] at h
    cases hp : parseObject [] with
    | none => rfl
    | some v =>
      rw [hp] at h
      simp at h
  | cons c r ih =>
    intro h i
    rw [hasObjectBlock, Bool.or_eq_false_iff] at h
    match i with
    | 0 =>
      rw [List.drop_zero]
      cases hp : parseObject (c :: r) with
      | none => rfl
      | some v =>
        have h1 := h.1
        rw [hp] at h1
        simp at h1
    | i + 1 =>
      rw [List.drop_succ_cons]
      exact ih h.2 i

/-- A successful `parsePhrase` consumes a prefix: the rest is a `drop`. -/
theorem parsePhrase_some_drop {s c : List Char} {r : List Char}
    (h : parsePhrase s = some (c, r)) : ∃ k, r = s.drop k := by
  simp only [parsePhrase] at h
  split at h
  · split at h
    · exact absurd h (by simp)
    · split at h
      · refine ⟨openPhraseT.length + ((s.drop openPhraseT.length).takeWhile
          (fun c => c ≠ '<')).length + closePhraseT.length, ?_⟩
        have := (Prod.mk.injEq _ _ _ _).mp (Option.some.injEq _ _ |>.mp h)
        rw [← this.2, List.drop_drop, List.drop_drop]
        ring_nf
      · exact absurd h (by simp)
  · exact absurd h (by simp)

/-- If `parseObject` fails at every position of `s`, the extraction
scanner finds no match (the phrase-first alternative also needs an object
block right after the phrase, at a later position of `s`). -/
theorem extractGo_no_block (fuel : ℕ) :
    ∀ (pos : ℕ) (s : List Char),
      (∀ i, parseObject (s.drop i) = none) → extractGo fuel pos s = [] := by
  induction fuel with
  | zero => intro pos s _; rfl
  | succ fuel ih =>
    intro pos s h
    have hobj : parseObject s = none := by simpa using h 0
    have hstep : ∀ c r, s = c :: r → extractGo fuel (pos + 1) r = [] := by
      intro c r hs
      refine ih (pos + 1) r fun i => ?_
      have := h (i + 1)
      simpa [hs] using this
    cases hph : parsePhrase s with
    | some p =>
      obtain ⟨content, r1⟩ := p
      obtain ⟨k, hk⟩ := parsePhrase_some_drop hph
      have hobj1 : parseObject r1 = none := by rw [hk]; exact h k
      cases s with
      | nil => simp [extractGo, hph, hobj1]
      | cons c r => simp [extractGo, hph, hobj1, hstep c r rfl]
    | none =>
      cases s with
      | nil => simp [extractGo, hph, hobj]
      | cons c r => simp [extractGo, hph, hobj, hstep c r rfl]

/-- If the text contains no complete `<object>...</object>` block,
extraction returns no entities. -/
theorem extract_entities_no_block {text : List Char}
    (h : hasObjectBlock text = false) :
    extract_entities_with_patch_indices text = [] :=
  extractGo_no_block _ 0 text (parseObject_none_of_no_block h)

/-! ### Whitespace-stripping lemmas -/

theorem dropWhile_head_not {p : Char → Bool} :
    ∀ {l : List Char} {c : Char}, (l.dropWhile p).head? = some c → p c = false := by
  intro l
  induction l with
  | nil => intro c h; simp at h
  | cons a l ih =>
    intro c h
    by_cases hp : p a = true
    · rw [List.dropWhile_cons_of_pos hp] at h
      exact ih h
    · rw [List.dropWhile_cons_of_neg hp] at h
      simp only [List.head?_cons, Option.some.injEq] at h
      rw [← h]
      exact Bool.not_eq_true _ ▸ hp

theorem lastNonWS_pyRstrip (s : List Char) : LastNonWS (pyRstrip s) := by
  intro c h
  rw [pyRstrip, List.getLast?_reverse] at h
  exact dropWhile_head_not h

theorem dropWhile_eq_self_of_head {p : Char → Bool} {l : List Char}
    (h : ∀ c, l.head? = some c → p c = false) : l.dropWhile p = l := by
  cases l with
  | nil => rfl
  | cons a t =>
    rw [List.dropWhile_cons_of_neg]
    rw [h a rfl]
    simp

theorem pyRstrip_append (a b : List Char) (h : LastNonWS a) :
    pyRstrip (a ++ b) = a ++ pyRstrip b := by
  unfold pyRstrip
  rw [List.reverse_append, List.dropWhile_append]
  by_cases he : (b.reverse.dropWhile pyIsspace).isEmpty
  · rw [if_pos he]
    have hb : b.reverse.dropWhile pyIsspace = [] := by
      simpa [List.isEmpty_iff] using he
    rw [hb]
    simp only [List.reverse_nil, List.append_nil]
    have ha : a.reverse.dropWhile pyIsspace = a.reverse :=
      dropWhile_eq_self_of_head (fun c hc => h c (by rwa [List.head?_reverse] at hc))
    rw [ha, List.reverse_reverse]
  · rw [if_neg he]
    rw [List.reverse_append, List.reverse_reverse]

theorem pyRstrip_eq_self {a : List Char} (h : LastNonWS a) : pyRstrip a = a := by
  have := pyRstrip_append a [] h
  simpa [pyRstrip] using this

theorem pyRstrip_idem (s : List Char) : pyRstrip (pyRstrip s) = pyRstrip s :=
  pyRstrip_eq_self (lastNonWS_pyRstrip s)

theorem pyRstrip_decomp (s : List Char) : ∃ u, s = pyRstrip s ++ u := by
  refine ⟨(s.reverse.takeWhile pyIsspace).reverse, ?_⟩
  calc s = s.reverse.reverse := (List.reverse_reverse s).symm
    _ = ((s.reverse.takeWhile pyIsspace) ++ (s.reverse.dropWhile pyIsspace)).reverse := by
        rw [List.takeWhile_append_dropWhile]
    _ = pyRstrip s ++ (s.reverse.takeWhile pyIsspace).reverse := by
        rw [List.reverse_append]; rfl

theorem head?_append_of_ne_nil {x : List Char} (u : List Char) (h : x ≠ []) :
    (x ++ u).head? = x.head? := by
  cases x with
  | nil => exact absurd rfl h
  | cons a t => rfl

theorem pyRstrip_head {s : List Char} (h : pyRstrip s ≠ []) :
    (pyRstrip s).head? = s.head? := by
  obtain ⟨u, hu⟩ := pyRstrip_decomp s
  conv_rhs => rw [hu]
  rw [head?_append_of_ne_nil u h]

/-! ### Clean-fragment and vocabulary lemmas -/

theorem goodVocab_tag_ne_nil {V : List (List Char)} {t : List Char}
    (hV : GoodVocab V) (ht : t ∈ V) : t ≠ [] := by
  intro h
  subst h
  have := (hV _ ht).1
  simp at this

theorem mem_of_getLast?_eq_some {l : List Char} {c : Char} :
    l.getLast? = some c → c ∈ l := by
  induction l with
  | nil => intro h; simp at h
  | cons a t ih =>
    intro h
    cases t with
    | nil =>
      simp only [List.getLast?_singleton, Option.some.injEq] at h
      simp [h]
    | cons b u =>
      rw [List.getLast?_cons_cons] at h
      exact List.mem_cons_of_mem a (ih h)

theorem goodVocab_tag_lastNonWS {V : List (List Char)} {t : List Char}
    (hV : GoodVocab V) (ht : t ∈ V) : LastNonWS t := by
  intro c hc
  exact (hV _ ht).2.2 c (mem_of_getLast?_eq_some hc)

theorem cleanFrag_of_decomp {V : List (List Char)} {g x : List Char}
    (hg : CleanFrag V g) (hx : ∃ u, g = x ++ u) : CleanFrag V x := by
  intro j t ht htne hpre
  obtain ⟨u, rfl⟩ := hx
  refine hg j t ht htne ?_
  rcases le_or_lt j x.length with hj | hj
  · rw [List.drop_append_of_le_length hj]
    exact hpre.trans (List.prefix_append _ _)
  · rw [List.drop_eq_nil_of_le (le_of_lt hj)] at hpre
    exact absurd (List.prefix_nil.mp hpre) htne

theorem cleanFrag_cons_space {V : List (List Char)} {g : List Char}
    (hV : GoodVocab V) (hg : CleanFrag V g) : CleanFrag V (' ' :: g) := by
  intro j t ht htne hpre
  match j with
  | 0 =>
    obtain ⟨c, t', rfl⟩ := List.exists_cons_of_ne_nil htne
    have hh := (hV _ ht).1
    simp only [List.head?_cons, Option.some.injEq] at hh
    obtain ⟨u, hu⟩ := hpre
    rw [List.drop_zero] at hu
    simp only [List.cons_append] at hu
    have : c = ' ' := (List.cons.injEq _ _ _ _).mp hu |>.1
    rw [hh] at this
    exact absurd this (by decide)
  | j + 1 =>
    exact hg j t ht htne (by simpa using hpre)

theorem cleanFrag_nil (V : List (List Char)) : CleanFrag V [] := by
  intro j t ht htne hpre
  rw [List.drop_nil] at hpre
  exact htne (List.prefix_nil.mp hpre)

theorem frag_not_mem {V : List (List Char)} {g : List Char}
    (hV : GoodVocab V) (hg : CleanFrag V g) : g ∉ V := by
  intro hmem
  have hne := goodVocab_tag_ne_nil hV hmem
  exact hg 0 g hmem hne (by rw [List.drop_zero])

/-! ### No-extension core lemma -/

theorem no_extension {V : List (List Char)} {x base e r : List Char}
    (hV : GoodVocab V) (hx : x ∈ V) (hbase : base ≠ []) (hxeq : x = base ++ e)
    (he : e ≠ []) (hr : ContOk r) (her : e <+: r) : False := by
  obtain ⟨c, e', rfl⟩ := List.exists_cons_of_ne_nil he
  rcases hr with rfl | hsp | hlt
  · exact absurd (List.prefix_nil.mp her) he
  · obtain ⟨u, hu⟩ := her
    have hc : c = ' ' := by
      rw [← hu] at hsp
      simpa using hsp
    have hmem : c ∈ x := by
      rw [hxeq]
      exact List.mem_append_right _ (List.mem_cons_self _ _)
    have := (hV _ hx).2.2 c hmem
    rw [hc] at this
    simp [pyIsspace] at this
  · obtain ⟨u, hu⟩ := her
    have hc : c = '<' := by
      rw [← hu] at hlt
      simpa using hlt
    obtain ⟨b, base', rfl⟩ := List.exists_cons_of_ne_nil hbase
    have htl : c ∈ x.tail := by
      rw [hxeq]
      simp
    have := (hV _ hx).2.1 c htl
    exact this hc

/-! ### Tag-matching stability lemmas -/

theorem findTagAt_eq_none_iff {V : List (List Char)} {s : List Char} :
    findTagAt V s = none ↔ ∀ t ∈ V, ¬(t ≠ [] ∧ t <+: s) := by
  rw [findTagAt, List.find?_eq_none]
  constructor
  · intro h t ht hc
    refine h t ht ?_
    rw [Bool.and_eq_true]
    exact ⟨by simpa [List.isEmpty_iff] using hc.1, isPrefixOf_eq_true_iff.mpr hc.2⟩
  · intro h t ht hc
    rw [Bool.and_eq_true] at hc
    exact h t ht ⟨by simpa [List.isEmpty_iff] using hc.1, isPrefixOf_eq_true_iff.mp hc.2⟩

theorem findTagAt_nil (V : List (List Char)) : findTagAt V [] = none := by
  rw [findTagAt_eq_none_iff]
  intro t _ hc
  exact hc.1 (List.prefix_nil.mp hc.2)

theorem findTagAt_some {V : List (List Char)} {s t : List Char}
    (h : findTagAt V s = some t) : t ∈ V ∧ t ≠ [] ∧ t <+: s := by
  have h1 := List.find?_some h
  rw [Bool.and_eq_true] at h1
  exact ⟨List.mem_of_find?_eq_some h, by simpa [List.isEmpty_iff] using h1.1,
    isPrefixOf_eq_true_iff.mp h1.2⟩

theorem noTagStart_of_cleanFrag {V : List (List Char)} {g r : List Char}
    (hV : GoodVocab V) (hg : CleanFrag V g) (hr : ContOk r) : NoTagStart V g r := by
  intro j hj
  rw [findTagAt_eq_none_iff]
  intro x hxV hc
  obtain ⟨hxne, hxp⟩ := hc
  rcases le_or_lt x.length (g.drop j).length with hle | hlt
  · have : x <+: g.drop j := List.prefix_of_prefix_length_le hxp (List.prefix_append _ _) hle
    exact hg j x hxV hxne this
  · have hbp : (g.drop j) <+: x := List.prefix_of_prefix_length_le (List.prefix_append _ _) hxp (le_of_lt hlt)
    obtain ⟨e, hxe⟩ := hbp
    have he : e ≠ [] := by
      intro hnil
      rw [hnil, List.append_nil] at hxe
      rw [← hxe] at hlt
      exact lt_irrefl _ hlt
    have her : e <+: r := by
      rw [← hxe] at hxp
      exact (List.prefix_append_right_inj _).mp hxp
    have hbase : g.drop j ≠ [] := by
      intro hnil
      have := List.drop_eq_nil_iff.mp hnil
      omega
    exact no_extension hV hxV hbase hxe.symm he hr her

theorem find?_mono_some {p q : List Char → Bool} {V : List (List Char)} {t : List Char}
    (himp : ∀ x ∈ V, q x = true → p x = true) (hq : q t = true)
    (hp : V.find? p = some t) : V.find? q = some t := by
  induction V with
  | nil => simp at hp
  | cons a V ih =>
    by_cases hpa : p a = true
    · rw [List.find?_cons_of_pos _ hpa] at hp
      have ha : a = t := by injection hp
      subst ha
      rw [List.find?_cons_of_pos _ hq]
    · rw [List.find?_cons_of_neg _ hpa] at hp
      have hqa : ¬ q a = true := fun h => hpa (himp a (List.mem_cons_self _ _) h)
      rw [List.find?_cons_of_neg _ hqa]
      exact ih (fun x hx => himp x (List.mem_cons_of_mem _ hx)) hp

theorem firstTagStable_of_found {V : List (List Char)} {t r0 : List Char}
    (hV : GoodVocab V) (h : findTagAt V (t ++ r0) = some t) : FirstTagStable V t := by
  intro r hr
  obtain ⟨htV, htne, -⟩ := findTagAt_some h
  rw [findTagAt] at h ⊢
  refine find?_mono_some ?_ ?_ h
  · intro x hx hqx
    rw [Bool.and_eq_true] at hqx ⊢
    refine ⟨hqx.1, ?_⟩
    have hxp : x <+: t ++ r := isPrefixOf_eq_true_iff.mp hqx.2
    have hxne : x ≠ [] := by simpa [List.isEmpty_iff] using hqx.1
    rcases le_or_lt x.length t.length with hle | hlt
    · have : x <+: t := List.prefix_of_prefix_length_le hxp (List.prefix_append _ _) hle
      exact isPrefixOf_eq_true_iff.mpr (this.trans (List.prefix_append _ _))
    · have hbp : t <+: x := List.prefix_of_prefix_length_le (List.prefix_append _ _) hxp (le_of_lt hlt)
      obtain ⟨e, hxe⟩ := hbp
      have he : e ≠ [] := by
        intro hnil
        rw [hnil, List.append_nil] at hxe
        rw [← hxe] at hlt
        exact lt_irrefl _ hlt
      have her : e <+: r := by
        rw [← hxe] at hxp
        exact (List.prefix_append_right_inj _).mp hxp
      exact (no_extension hV hx htne hxe.symm he hr her).elim
  · rw [Bool.and_eq_true]
    refine ⟨by simpa [List.isEmpty_iff] using htne, isPrefixOf_eq_true_iff.mpr (List.prefix_append _ _)⟩

/-! ### Splitter equations and fuel irrelevance -/

theorem splitTagsGo_zero (V : List (List Char)) (acc s : List Char) :
    splitTagsGo V 0 acc s = (acc.reverse ++ s, []) := rfl

theorem splitTagsGo_succ_tag {V : List (List Char)} {s t : List Char} (acc : List Char)
    (fuel : ℕ) (hfind : findTagAt V s = some t) :
    splitTagsGo V (fuel + 1) acc s =
      (acc.reverse, (t, (splitTagsGo V fuel [] (s.drop t.length)).1) ::
        (splitTagsGo V fuel [] (s.drop t.length)).2) := by
  simp only [splitTagsGo, hfind]

theorem splitTagsGo_succ_nil (V : List (List Char)) (acc : List Char) (fuel : ℕ) :
    splitTagsGo V (fuel + 1) acc [] = (acc.reverse, []) := by
  simp only [splitTagsGo, findTagAt_nil]

theorem splitTagsGo_succ_consume {V : List (List Char)} {c : Char} {r : List Char}
    (acc : List Char) (fuel : ℕ) (hfind : findTagAt V (c :: r) = none) :
    splitTagsGo V (fuel + 1) acc (c :: r) = splitTagsGo V fuel (c :: acc) r := by
  simp only [splitTagsGo, hfind]

theorem splitTagsGo_irrel {V : List (List Char)} :
    ∀ {n m : ℕ} {acc s : List Char}, s.length ≤ n → s.length ≤ m →
      splitTagsGo V n acc s = splitTagsGo V m acc s := by
  intro n
  induction n with
  | zero =>
    intro m acc s hn hm
    have hs : s = [] := List.length_eq_zero.mp (Nat.le_zero.mp hn)
    subst hs
    cases m with
    | zero => rfl
    | succ m => rw [splitTagsGo_zero, splitTagsGo_succ_nil, List.append_nil]
  | succ n ih =>
    intro m acc s hn hm
    cases s with
    | nil =>
      cases m with
      | zero => rw [splitTagsGo_zero, splitTagsGo_succ_nil, List.append_nil]
      | succ m => rw [splitTagsGo_succ_nil, splitTagsGo_succ_nil]
    | cons c r =>
      cases m with
      | zero => simp at hm
      | succ m =>
        cases hfind : findTagAt V (c :: r) with
        | some t =>
          rw [splitTagsGo_succ_tag _ _ hfind, splitTagsGo_succ_tag _ _ hfind]
          obtain ⟨-, htne, htp⟩ := findTagAt_some hfind
          have ht1 : 1 ≤ t.length := by
            cases t with
            | nil => exact absurd rfl htne
            | cons a b => simp
          have htle := htp.length_le
          have hlen1 : ((c :: r).drop t.length).length ≤ n := by
            rw [List.length_drop]
            simp only [List.length_cons] at hn htle ⊢
            omega
          have hlen2 : ((c :: r).drop t.length).length ≤ m := by
            rw [List.length_drop]
            simp only [List.length_cons] at hm htle ⊢
            omega
          rw [ih hlen1 hlen2]
        | none =>
          rw [splitTagsGo_succ_consume _ _ hfind, splitTagsGo_succ_consume _ _ hfind]
          refine ih ?_ ?_
          · simp only [List.length_cons] at hn; omega
          · simp only [List.length_cons] at hm; omega

/-! ### Consuming a clean fragment -/

theorem splitTagsGo_consume {V : List (List Char)} {f rest : List Char}
    (hf : NoTagStart V f rest) :
    ∀ (fuel : ℕ) (acc : List Char), (f ++ rest).length ≤ fuel →
      splitTagsGo V fuel acc (f ++ rest) =
        splitTagsGo V (fuel - f.length) (f.reverse ++ acc) rest := by
  induction f with
  | nil => intro fuel acc h; simp
  | cons c f' ih =>
    intro fuel acc h
    have hfind : findTagAt V (c :: (f' ++ rest)) = none := by
      have := hf 0 (by simp)
      simpa using this
    cases fuel with
    | zero => simp at h
    | succ fuel =>
      rw [List.cons_append, splitTagsGo_succ_consume _ _ hfind]
      have hf' : NoTagStart V f' rest := by
        intro j hj
        have := hf (j + 1) (by simp only [List.length_cons]; omega)
        simpa using this
      rw [ih hf' fuel (c :: acc) (by simp only [List.length_append, List.length_cons] at h ⊢; omega)]
      have harith : fuel + 1 - (c :: f').length = fuel - f'.length := by
        simp only [List.length_cons]
        omega
      rw [harith, List.reverse_cons, List.append_assoc]
      rfl

/-! ### Joining the split back -/

theorem flatStr_nil : flatStr [] = [] := rfl

theorem flatStr_cons (t g : List Char) (L : List (List Char × List Char)) :
    flatStr ((t, g) :: L) = t ++ (g ++ flatStr L) := by
  simp [flatStr]

theorem splitTagsGo_join {V : List (List Char)} :
    ∀ (fuel : ℕ) (acc s : List Char),
      (splitTagsGo V fuel acc s).1 ++ flatStr (splitTagsGo V fuel acc s).2 = acc.reverse ++ s := by
  intro fuel
  induction fuel with
  | zero => intro acc s; rw [splitTagsGo_zero]; simp [flatStr]
  | succ fuel ih =>
    intro acc s
    cases s with
    | nil => rw [splitTagsGo_succ_nil]; simp [flatStr]
    | cons c r =>
      cases hfind : findTagAt V (c :: r) with
      | some t =>
        rw [splitTagsGo_succ_tag _ _ hfind]
        obtain ⟨-, -, htp⟩ := findTagAt_some hfind
        have hdec : t ++ (c :: r).drop t.length = c :: r := List.prefix_iff_eq_append.mp htp
        have hih := ih [] ((c :: r).drop t.length)
        simp only [List.reverse_nil, List.nil_append] at hih
        dsimp only
        rw [flatStr_cons, ← List.append_assoc, hih, List.append_assoc, hdec]
      | none =>
        rw [splitTagsGo_succ_consume _ _ hfind, ih]
        simp

/-! ### Re-splitting a glued normalized string -/

theorem splitTagsGo_glue {V : List (List Char)} (hV : GoodVocab V) :
    ∀ (L : List (List Char × List Char)) (f0 : List Char), CleanFrag V f0 → ChunksOK V L →
      ∀ (fuel : ℕ) (acc : List Char), (f0 ++ flatStr L).length ≤ fuel →
        splitTagsGo V fuel acc (f0 ++ flatStr L) = (acc.reverse ++ f0, L) := by
  intro L
  induction L with
  | nil =>
    intro f0 hf0 _ fuel acc hlen
    rw [flatStr_nil]
    rw [splitTagsGo_consume (noTagStart_of_cleanFrag hV hf0 (Or.inl rfl)) fuel acc
      (by simpa [flatStr_nil] using hlen)]
    cases hfuel : fuel - f0.length with
    | zero => rw [splitTagsGo_zero]; simp
    | succ k => rw [splitTagsGo_succ_nil]; simp
  | cons q L' ih =>
    obtain ⟨t, g⟩ := q
    intro f0 hf0 hok fuel acc hlen
    have hokq := hok (t, g) (List.mem_cons_self _ _)
    have hstable : FirstTagStable V t := hokq.1
    have htV : t ∈ V := List.mem_of_find?_eq_some (hstable [] (Or.inl rfl))
    have htne : t ≠ [] := goodVocab_tag_ne_nil hV htV
    have hthead : t.head? = some '<' := (hV _ htV).1
    have hok' : ChunksOK V L' := fun q2 hq2 => hok q2 (List.mem_cons_of_mem _ hq2)
    have hcont1 : ContOk (flatStr ((t, g) :: L')) := by
      right; right
      rw [flatStr_cons, head?_append_of_ne_nil _ htne, hthead]
    rw [splitTagsGo_consume (noTagStart_of_cleanFrag hV hf0 hcont1) fuel acc hlen]
    have hcont2 : ContOk (g ++ flatStr L') := by
      rcases hokq.2.2 with hg0 | hgsp
      · subst hg0
        simp only [List.nil_append]
        cases hL' : L' with
        | nil => exact Or.inl flatStr_nil
        | cons q2 L2 =>
          right; right
          obtain ⟨t2, g2⟩ := q2
          have ht2V : t2 ∈ V := List.mem_of_find?_eq_some
            ((hok' (t2, g2) (by rw [hL']; exact List.mem_cons_self _ _)).1 [] (Or.inl rfl))
          rw [flatStr_cons, head?_append_of_ne_nil _ (goodVocab_tag_ne_nil hV ht2V), (hV _ ht2V).1]
      · right; left
        have hgne : g ≠ [] := by
          intro h
          rw [h] at hgsp
          simp at hgsp
        rw [head?_append_of_ne_nil _ hgne, hgsp]
    have hfind : findTagAt V (t ++ (g ++ flatStr L')) = some t := hstable _ hcont2
    rw [flatStr_cons]
    have ht1 : 1 ≤ t.length := by
      cases t with
      | nil => exact absurd rfl htne
      | cons a b => simp
    have hrestlen : (t ++ (g ++ flatStr L')).length ≤ fuel - f0.length := by
      simp only [List.length_append] at hlen ⊢
      rw [flatStr_cons] at hlen
      simp only [List.length_append] at hlen
      omega
    cases hfuel : fuel - f0.length with
    | zero =>
      exfalso
      rw [hfuel] at hrestlen
      simp only [List.length_append, Nat.le_zero] at hrestlen
      omega
    | succ k =>
      rw [hfuel] at hrestlen
      rw [splitTagsGo_succ_tag _ _ hfind]
      rw [List.drop_left]
      have hklen : (g ++ flatStr L').length ≤ k := by
        simp only [List.length_append] at hrestlen ⊢
        omega
      rw [ih g hokq.2.1 hok' k [] hklen]
      simp

/-! ### Invariants of the split of an arbitrary text -/

theorem splitTagsGo_spec {V : List (List Char)} :
    ∀ (fuel : ℕ) (acc s : List Char), s.length ≤ fuel →
      (∀ j < acc.reverse.length, findTagAt V (acc.reverse.drop j ++ s) = none) →
      CleanFrag V (splitTagsGo V fuel acc s).1 ∧
        ∀ q ∈ (splitTagsGo V fuel acc s).2,
          CleanFrag V q.2 ∧ ∃ r0, findTagAt V (q.1 ++ r0) = some q.1 := by
  intro fuel
  have hfragclean : ∀ (acc s : List Char),
      (∀ j < acc.reverse.length, findTagAt V (acc.reverse.drop j ++ s) = none) →
      CleanFrag V acc.reverse := by
    intro acc s hinv
    intro j x hxV hxne hxp
    by_cases hj : j < acc.reverse.length
    · have := hinv j hj
      rw [findTagAt_eq_none_iff] at this
      exact this x hxV ⟨hxne, hxp.trans (List.prefix_append _ _)⟩
    · rw [List.drop_eq_nil_of_le (le_of_not_lt hj)] at hxp
      exact hxne (List.prefix_nil.mp hxp)
  induction fuel with
  | zero =>
    intro acc s hlen hinv
    have hs : s = [] := List.length_eq_zero.mp (Nat.le_zero.mp hlen)
    subst hs
    rw [splitTagsGo_zero, List.append_nil]
    exact ⟨hfragclean acc [] hinv, by simp⟩
  | succ fuel ih =>
    intro acc s hlen hinv
    cases s with
    | nil =>
      rw [splitTagsGo_succ_nil]
      exact ⟨hfragclean acc [] hinv, by simp⟩
    | cons c r =>
      cases hfind : findTagAt V (c :: r) with
      | some t =>
        rw [splitTagsGo_succ_tag _ _ hfind]
        obtain ⟨-, htne, htp⟩ := findTagAt_some hfind
        have ht1 : 1 ≤ t.length := by
          cases t with
          | nil => exact absurd rfl htne
          | cons a b => simp
        have htle := htp.length_le
        have hlen' : ((c :: r).drop t.length).length ≤ fuel := by
          rw [List.length_drop]
          simp only [List.length_cons] at hlen htle ⊢
          omega
        have hp := ih [] ((c :: r).drop t.length) hlen' (by simp)
        refine ⟨hfragclean acc (c :: r) hinv, ?_⟩
        intro q hq
        rcases List.mem_cons.mp hq with rfl | hq2
        · refine ⟨hp.1, (c :: r).drop t.length, ?_⟩
          rwa [List.prefix_iff_eq_append.mp htp]
        · exact hp.2 q hq2
      | none =>
        rw [splitTagsGo_succ_consume _ _ hfind]
        refine ih (c :: acc) r (by simp only [List.length_cons] at hlen; omega) ?_
        intro j hj
        rw [List.reverse_cons] at hj ⊢
        simp only [List.length_append, List.length_reverse, List.length_cons,
          List.length_nil] at hj
        rcases lt_or_ge j acc.reverse.length with hlt | hge
        · rw [List.drop_append_of_le_length (le_of_lt hlt), List.append_assoc]
          have := hinv j (by simpa using hlt)
          simpa using this
        · have hj' : j = acc.reverse.length := by simp at hge ⊢; omega
          subst hj'
          rw [List.drop_left]
          simpa using hfind

/-! ### Filter and rebuild on the structured chunks -/

theorem getLast?_append_right {α : Type} {l2 : List α} (h : l2 ≠ []) (l1 : List α) :
    (l1 ++ l2).getLast? = l2.getLast? := by
  induction l1 with
  | nil => rfl
  | cons a l1 ih =>
    rw [List.cons_append]
    rw [← ih]
    cases hl : l1 ++ l2 with
    | nil =>
      exact absurd (List.append_eq_nil.mp hl).2 h
    | cons b u => rw [List.getLast?_cons_cons]

theorem dropLast_append_right {α : Type} {l2 : List α} (h : l2 ≠ []) (l1 : List α) :
    (l1 ++ l2).dropLast = l1 ++ l2.dropLast := by
  induction l1 with
  | nil => rfl
  | cons a l1 ih =>
    rw [List.cons_append]
    cases hl : l1 ++ l2 with
    | nil => exact absurd (List.append_eq_nil.mp hl).2 h
    | cons b u =>
      rw [List.dropLast_cons₂, ← hl, ih, List.cons_append]

theorem flat2_nil : flat2 [] = [] := rfl

theorem flat2_cons (t g : List Char) (L : List (List Char × List Char)) :
    flat2 ((t, g) :: L) = t :: g :: flat2 L := by
  simp [flat2]

theorem flatFilt_cons_of_ne {t g : List Char} {L : List (List Char × List Char)}
    (h : L ≠ []) : flatFilt ((t, g) :: L) = t :: g :: flatFilt L := by
  cases L with
  | nil => exact absurd rfl h
  | cons q L' => rfl

theorem normChunks_cons_of_ne {t g : List Char} {L : List (List Char × List Char)}
    (h : L ≠ []) : normChunks ((t, g) :: L) = (t, normFrag g) :: normChunks L := by
  cases L with
  | nil => exact absurd rfl h
  | cons q L' => rfl

theorem dropTrailingEmpty_append_flat2 {L : List (List Char × List Char)} (h : L ≠ []) :
    ∀ xs : List (List Char), dropTrailingEmpty (xs ++ flat2 L) = xs ++ flatFilt L := by
  induction L with
  | nil => exact absurd rfl h
  | cons q L' ih =>
    obtain ⟨t, g⟩ := q
    intro xs
    cases L' with
    | nil =>
      rw [flat2_cons, flat2_nil]
      rw [dropTrailingEmpty]
      rw [show (xs ++ [t, g] : List (List Char)) = xs ++ [t] ++ [g] by simp]
      rw [getLast?_append_right (by simp) (xs ++ [t])]
      cases g with
      | nil =>
        simp only [List.getLast?_singleton]
        rw [dropLast_append_right (by simp) (xs ++ [t])]
        simp [flatFilt]
      | cons c g' =>
        simp only [List.getLast?_singleton]
        simp [flatFilt]
    | cons q2 L2 =>
      rw [flat2_cons]
      rw [show xs ++ (t :: g :: flat2 (q2 :: L2)) = (xs ++ [t, g]) ++ flat2 (q2 :: L2) by simp]
      rw [ih (by simp) (xs ++ [t, g])]
      rw [flatFilt_cons_of_ne (t := t) (g := g) (L := q2 :: L2) (by simp)]
      simp

theorem dropEdgeEmpty_eq (f0 : List Char) (L : List (List Char × List Char)) :
    dropEdgeEmpty (f0 :: flat2 L) =
      (if f0.isEmpty then [] else [f0]) ++ flatFilt L := by
  rw [dropEdgeEmpty]
  cases hf0 : f0 with
  | nil =>
    rw [show dropLeadingEmpty ([] :: flat2 L) = flat2 L from rfl]
    cases hL : L with
    | nil => rfl
    | cons q L' =>
      have := dropTrailingEmpty_append_flat2 (L := q :: L') (by simp) []
      simpa using this
  | cons c f0' =>
    rw [show dropLeadingEmpty ((c :: f0') :: flat2 L) = (c :: f0') :: flat2 L from rfl]
    cases hL : L with
    | nil =>
      simp only [flat2_nil]
      rw [dropTrailingEmpty]
      simp [flatFilt]
    | cons q L' =>
      have := dropTrailingEmpty_append_flat2 (L := q :: L') (by simp) [c :: f0']
      simp only [List.singleton_append] at this
      rw [this]
      simp [flatFilt]

/-! ### Rebuild-loop equations and spacing micro-lemmas -/

theorem rebuildGo_nil (V : List (List Char)) (output : List Char) (prev : Bool) :
    rebuildGo V output prev [] = output := rfl

theorem rebuildGo_tag {V : List (List Char)} {t : List Char} (output : List Char)
    (prev : Bool) (rest : List (List Char)) (h : t ∈ V) :
    rebuildGo V output prev (t :: rest) =
      rebuildGo V (pyRstrip output ++ t) true rest := by
  simp only [rebuildGo, if_pos h]

theorem rebuildGo_frag_true {V : List (List Char)} {g : List Char} (output : List Char)
    (rest : List (List Char)) (h : g ∉ V) :
    rebuildGo V output true (g :: rest) =
      rebuildGo V (output ++ spaced g) false rest := by
  simp only [rebuildGo, if_neg h, spaced]
  by_cases hh : (g.head? == some ' ') = true
  · simp [hh]
  · simp only [Bool.not_eq_true] at hh
    simp [hh]

theorem rebuildGo_frag_false {V : List (List Char)} {g : List Char} (output : List Char)
    (rest : List (List Char)) (h : g ∉ V) :
    rebuildGo V output false (g :: rest) =
      rebuildGo V (output ++ g) false rest := by
  simp only [rebuildGo, if_neg h]
  simp

theorem spaced_head (f : List Char) : (spaced f).head? = some ' ' := by
  rw [spaced]
  by_cases hh : (f.head? == some ' ') = true
  · rw [if_pos hh]
    exact beq_iff_eq.mp hh
  · rw [if_neg hh]
    rfl

theorem spaced_ne_nil (f : List Char) : spaced f ≠ [] := by
  intro h
  have := spaced_head f
  rw [h] at this
  simp at this

theorem spaced_of_head {f : List Char} (h : f.head? = some ' ') : spaced f = f := by
  rw [spaced, if_pos (beq_iff_eq.mpr h)]

theorem spaced_spaced (f : List Char) : spaced (spaced f) = spaced f :=
  spaced_of_head (spaced_head f)

theorem cleanFrag_spaced {V : List (List Char)} {g : List Char}
    (hV : GoodVocab V) (hg : CleanFrag V g) : CleanFrag V (spaced g) := by
  rw [spaced]
  by_cases hh : (g.head? == some ' ') = true
  · rwa [if_pos hh]
  · rw [if_neg hh]
    exact cleanFrag_cons_space hV hg

theorem normFrag_nil : normFrag [] = [] := rfl

theorem normFrag_head {g : List Char} (h : normFrag g ≠ []) :
    (normFrag g).head? = some ' ' := by
  rw [normFrag] at h ⊢
  rw [pyRstrip_head h]
  exact spaced_head g

theorem normFrag_idem (g : List Char) : normFrag (normFrag g) = normFrag g := by
  by_cases h : normFrag g = []
  · rw [h, normFrag_nil]
  · rw [normFrag, spaced_of_head (normFrag_head h), normFrag, pyRstrip_idem]

theorem cleanFrag_normFrag {V : List (List Char)} {g : List Char}
    (hV : GoodVocab V) (hg : CleanFrag V g) : CleanFrag V (normFrag g) :=
  cleanFrag_of_decomp (cleanFrag_spaced hV hg) (pyRstrip_decomp (spaced g))

theorem normChunks_ne_nil {L : List (List Char × List Char)} (h : L ≠ []) :
    normChunks L ≠ [] := by
  cases L with
  | nil => exact absurd rfl h
  | cons q L' =>
    obtain ⟨t, g⟩ := q
    cases L' with
    | nil => simp [normChunks]
    | cons q2 L2 => simp [normChunks]

/-! ### Computing the rebuild loop on filtered chunks -/

theorem rebuild_chunks {V : List (List Char)} (hV : GoodVocab V) :
    ∀ (L : List (List Char × List Char)), (∀ q ∈ L, q.1 ∈ V ∧ q.2 ∉ V) → L ≠ [] →
      ∀ (output : List Char) (prev : Bool),
        rebuildGo V output prev (flatFilt L) = pyRstrip output ++ flatStr (normChunks L) := by
  intro L
  induction L with
  | nil => intro _ h; exact absurd rfl h
  | cons q L' ih =>
    obtain ⟨t, g⟩ := q
    intro hq _ output prev
    have hqt := (hq (t, g) (List.mem_cons_self _ _)).1
    have hqg := (hq (t, g) (List.mem_cons_self _ _)).2
    cases L' with
    | nil =>
      by_cases hg : g = ([] : List Char)
      · subst hg
        rw [show flatFilt [(t, [])] = [t] from rfl]
        rw [rebuildGo_tag _ _ _ hqt, rebuildGo_nil]
        rw [show normChunks [(t, ([] : List Char))] = [(t, [])] from rfl]
        rw [flatStr_cons, flatStr_nil]
        simp
      · rw [show flatFilt [(t, g)] = if g = [] then [t] else [t, g] from rfl, if_neg hg]
        rw [rebuildGo_tag _ _ _ hqt, rebuildGo_frag_true _ _ hqg, rebuildGo_nil]
        rw [show normChunks [(t, g)] = [(t, if g = [] then [] else spaced g)] from rfl, if_neg hg]
        rw [flatStr_cons, flatStr_nil]
        simp
    | cons q2 L2 =>
      rw [flatFilt_cons_of_ne (t := t) (g := g) (L := q2 :: L2) (by simp)]
      rw [rebuildGo_tag _ _ _ hqt, rebuildGo_frag_true _ _ hqg]
      rw [ih (fun x hx => hq x (List.mem_cons_of_mem _ hx)) (by simp)]
      rw [normChunks_cons_of_ne (t := t) (g := g) (by simp), flatStr_cons]
      have hlast : LastNonWS (pyRstrip output ++ t) := by
        intro c hc
        rw [getLast?_append_right (goodVocab_tag_ne_nil hV hqt) _] at hc
        exact goodVocab_tag_lastNonWS hV hqt c hc
      rw [show pyRstrip output ++ t ++ spaced g = (pyRstrip output ++ t) ++ spaced g by simp]
      rw [pyRstrip_append _ _ hlast]
      rw [← normFrag]
      simp

/-! ### The normalizer as a function of the structured split -/

theorem rebuild_split {V : List (List Char)} (hV : GoodVocab V) (f0 : List Char)
    (L : List (List Char × List Char)) (hf0 : CleanFrag V f0)
    (hL : ∀ q ∈ L, q.1 ∈ V ∧ CleanFrag V q.2) :
    rebuildGo V [] false (dropEdgeEmpty (toFlat (f0, L))) = normOutput (f0, L) := by
  rw [show toFlat (f0, L) = f0 :: flat2 L from rfl, dropEdgeEmpty_eq]
  cases L with
  | nil =>
    rw [show flatFilt [] = [] from rfl, List.append_nil]
    rw [show normOutput (f0, []) = f0 from rfl]
    by_cases hf : f0.isEmpty
    · rw [if_pos hf, rebuildGo_nil]
      exact (List.isEmpty_iff.mp hf).symm
    · rw [if_neg hf]
      rw [rebuildGo_frag_false _ _ (frag_not_mem hV hf0), rebuildGo_nil]
      simp
  | cons q L' =>
    have hchunks : ∀ x ∈ q :: L', x.1 ∈ V ∧ x.2 ∉ V :=
      fun x hx => ⟨(hL x hx).1, frag_not_mem hV (hL x hx).2⟩
    rw [show normOutput (f0, q :: L') = pyRstrip f0 ++ flatStr (normChunks (q :: L')) from rfl]
    by_cases hf : f0.isEmpty
    · rw [if_pos hf, List.nil_append]
      rw [rebuild_chunks hV _ hchunks (by simp) [] false]
      rw [List.isEmpty_iff.mp hf]
    · rw [if_neg hf, List.singleton_append]
      rw [rebuildGo_frag_false _ _ (frag_not_mem hV hf0)]
      rw [rebuild_chunks hV _ hchunks (by simp) ([] ++ f0) false]
      rw [List.nil_append]

theorem chunksOK_normChunks {V : List (List Char)} (hV : GoodVocab V) :
    ∀ L, (∀ q ∈ L, (∃ r0, findTagAt V (q.1 ++ r0) = some q.1) ∧ CleanFrag V q.2) →
      ChunksOK V (normChunks L) := by
  intro L
  induction L with
  | nil => intro _ q hq; simp [normChunks] at hq
  | cons q L' ih =>
    obtain ⟨t, g⟩ := q
    intro hL
    have hstable : FirstTagStable V t := by
      obtain ⟨r0, hr0⟩ := (hL (t, g) (List.mem_cons_self _ _)).1
      exact firstTagStable_of_found hV hr0
    have hcg : CleanFrag V g := (hL _ (List.mem_cons_self _ _)).2
    cases L' with
    | nil =>
      intro q2 hq2
      rw [show normChunks [(t, g)] = [(t, if g = [] then [] else spaced g)] from rfl] at hq2
      rw [List.mem_singleton] at hq2
      subst hq2
      refine ⟨hstable, ?_, ?_⟩
      · by_cases hg : g = []
        · simp only [if_pos hg]
          exact cleanFrag_nil V
        · simp only [if_neg hg]
          exact cleanFrag_spaced hV hcg
      · by_cases hg : g = []
        · simp [if_pos hg]
        · simp only [if_neg hg]
          exact Or.inr (spaced_head g)
    | cons q3 L3 =>
      intro q2 hq2
      rw [normChunks_cons_of_ne (by simp)] at hq2
      rcases List.mem_cons.mp hq2 with rfl | hq2'
      · refine ⟨hstable, cleanFrag_normFrag hV hcg, ?_⟩
        by_cases h : normFrag g = []
        · exact Or.inl h
        · exact Or.inr (normFrag_head h)
      · exact ih (fun x hx => hL x (List.mem_cons_of_mem _ hx)) q2 hq2'

theorem normChunks_idem : ∀ L, normChunks (normChunks L) = normChunks L := by
  intro L
  induction L with
  | nil => rfl
  | cons q L' ih =>
    obtain ⟨t, g⟩ := q
    cases L' with
    | nil =>
      by_cases hg : g = []
      · subst hg; rfl
      · rw [show normChunks [(t, g)] = [(t, if g = [] then [] else spaced g)] from rfl, if_neg hg]
        rw [show normChunks [(t, spaced g)] =
          [(t, if spaced g = [] then [] else spaced (spaced g))] from rfl]
        rw [if_neg (spaced_ne_nil g), spaced_spaced]
    | cons q2 L2 =>
      rw [normChunks_cons_of_ne (by simp)]
      have hne : normChunks (q2 :: L2) ≠ [] := normChunks_ne_nil (by simp)
      rw [normChunks_cons_of_ne hne, normFrag_idem, ih]

theorem normalize_eq_normOutput {V : List (List Char)} (hV : GoodVocab V) (s : List Char) :
    add_remove_spaces_around_tag_tokens V s = normOutput (splitTags V s) := by
  have hspec : CleanFrag V (splitTags V s).1 ∧
      ∀ q ∈ (splitTags V s).2, CleanFrag V q.2 ∧ ∃ r0, findTagAt V (q.1 ++ r0) = some q.1 :=
    splitTagsGo_spec s.length [] s le_rfl (by simp)
  rw [add_remove_spaces_around_tag_tokens]
  rcases hps : splitTags V s with ⟨f0, L⟩
  rw [hps] at hspec
  exact rebuild_split hV f0 L hspec.1 (fun q hq =>
    ⟨List.mem_of_find?_eq_some (hspec.2 q hq).2.choose_spec, (hspec.2 q hq).1⟩)

theorem splitTags_of_clean {V : List (List Char)} (hV : GoodVocab V) {f0 : List Char}
    (hf0 : CleanFrag V f0) : splitTags V f0 = (f0, []) := by
  have := splitTagsGo_glue hV [] f0 hf0 (fun q hq => absurd hq (List.not_mem_nil q))
    f0.length [] (by simp [flatStr_nil])
  rw [flatStr_nil, List.append_nil] at this
  simpa [splitTags] using this

theorem splitTags_glued {V : List (List Char)} (hV : GoodVocab V) {f0 : List Char}
    {L : List (List Char × List Char)} (hf0 : CleanFrag V f0) (hok : ChunksOK V L) :
    splitTags V (f0 ++ flatStr L) = (f0, L) := by
  have := splitTagsGo_glue hV L f0 hf0 hok (f0 ++ flatStr L).length [] le_rfl
  simpa [splitTags] using this

/-! ### Idempotence of the normalizer over a well-behaved vocabulary -/

theorem normalize_idem_of_goodVocab (V : List (List Char)) (text : List Char)
    (hV : GoodVocab V) :
    add_remove_spaces_around_tag_tokens V (add_remove_spaces_around_tag_tokens V text) =
      add_remove_spaces_around_tag_tokens V text := by
  have hspec : CleanFrag V (splitTags V text).1 ∧
      ∀ q ∈ (splitTags V text).2, CleanFrag V q.2 ∧ ∃ r0, findTagAt V (q.1 ++ r0) = some q.1 :=
    splitTagsGo_spec text.length [] text le_rfl (by simp)
  have h1 : add_remove_spaces_around_tag_tokens V text = normOutput (splitTags V text) :=
    normalize_eq_normOutput hV text
  rcases hps : splitTags V text with ⟨f0, L⟩
  rw [hps] at hspec h1
  have h2 : add_remove_spaces_around_tag_tokens V (normOutput (f0, L)) =
      normOutput (splitTags V (normOutput (f0, L))) := normalize_eq_normOutput hV _
  rw [h1, h2]
  cases L with
  | nil =>
    rw [show normOutput (f0, ([] : List (List Char × List Char))) = f0 from rfl]
    rw [splitTags_of_clean hV hspec.1]
    rfl
  | cons q L' =>
    have hno : normOutput (f0, q :: L') = pyRstrip f0 ++ flatStr (normChunks (q :: L')) := rfl
    have hok : ChunksOK V (normChunks (q :: L')) :=
      chunksOK_normChunks hV _ (fun x hx => ⟨(hspec.2 x hx).2, (hspec.2 x hx).1⟩)
    have hcf : CleanFrag V (pyRstrip f0) :=
      cleanFrag_of_decomp hspec.1 (pyRstrip_decomp f0)
    rw [hno, splitTags_glued hV hcf hok]
    obtain ⟨x, xs, hxx⟩ : ∃ x xs, normChunks (q :: L') = x :: xs := by
      cases h : normChunks (q :: L') with
      | nil => exact absurd h (normChunks_ne_nil (by simp))
      | cons x xs => exact ⟨x, xs, rfl⟩
    rw [hxx]
    rw [show normOutput (pyRstrip f0, x :: xs) =
      pyRstrip (pyRstrip f0) ++ flatStr (normChunks (x :: xs)) from rfl]
    rw [pyRstrip_idem, ← hxx, normChunks_idem]

end Kosmos2

open Kosmos2

/-- C6: single-cell index round trip: for `g ≥ 1` and `ul_idx < g * g`,
quantizing back the coordinates of the single cell `ul_idx` returns
exactly `(ul_idx, ul_idx)`. -/
theorem C6_single_cell_round_trip (g ul_idx : ℕ) (hg : 1 ≤ g) (hul : ul_idx < g * g) :
    coordinate_to_patch_index (patch_index_to_coordinate ul_idx ul_idx g) g =
      ((ul_idx : ℤ), (ul_idx : ℤ)) := by
  have hg0 : (g : ℚ) ≠ 0 := Nat.cast_ne_zero.mpr (by omega)
  rw [patch_index_to_coordinate]
  rw [if_pos rfl]
  simp only [coordinate_to_patch_index]
  have e1 : ∀ a : ℕ, ((a : ℚ)) * (1 / g) * g = a := by
    intro a; field_simp
  have e2 : ∀ a : ℕ, ((a : ℚ) * (1 / g) + 1 / g) * g - 1 = a := by
    intro a; field_simp
  rw [e1, e1, e2, e2, Int.floor_natCast, Int.floor_natCast, Int.ceil_natCast, Int.ceil_natCast]
  have h : ((ul_idx / g : ℕ) : ℤ) * g + ((ul_idx % g : ℕ) : ℤ) = (ul_idx : ℤ) := by
    rw [mul_comm]; exact_mod_cast Nat.div_add_mod ul_idx g
  rw [Prod.mk.injEq]
  exact ⟨h, h⟩

/-- C6 witness: concrete instance `g = 3`, `ul_idx = 4`. -/
theorem C6_single_cell_round_trip_witness :
    (1 ≤ 3 ∧ 4 < 3 * 3) ∧
      coordinate_to_patch_index (patch_index_to_coordinate 4 4 3) 3 = ((4 : ℤ), (4 : ℤ)) :=
  ⟨⟨by decide, by decide⟩, C6_single_cell_round_trip 3 4 (by decide) (by decide)⟩

/-- Helper: for rationals `a < b`, `⌊a⌋ ≤ ⌈b - 1⌉`. -/
theorem floor_le_ceil_sub_one {a b : ℚ} (hab : a < b) : ⌊a⌋ ≤ ⌈b - 1⌉ := by
  have h1 : (⌊a⌋ : ℚ) < (⌈b - 1⌉ : ℚ) + 1 := by
    have := Int.floor_le a
    have := Int.le_ceil (b - 1)
    linarith
  exact Int.lt_add_one_iff.mp (by exact_mod_cast h1)

/-- C7: for a grid side `g ≥ 1` and a box with `0 ≤ x1 < x2 ≤ 1` and
`0 ≤ y1 < y2 ≤ 1`, the quantizer returns `ul_idx ≤ lr_idx`. -/
theorem C7_ul_le_lr (g : ℕ) (x1 y1 x2 y2 : ℚ) (hg : 1 ≤ g)
    (hx0 : 0 ≤ x1) (hx : x1 < x2) (hx1 : x2 ≤ 1)
    (hy0 : 0 ≤ y1) (hy : y1 < y2) (hy1 : y2 ≤ 1) :
    (coordinate_to_patch_index (x1, y1, x2, y2) g).1 ≤
      (coordinate_to_patch_index (x1, y1, x2, y2) g).2 := by
  have hgq : (0 : ℚ) < g := by exact_mod_cast Nat.lt_of_lt_of_le Nat.zero_lt_one hg
  simp only [coordinate_to_patch_index]
  have hxx : ⌊x1 * g⌋ ≤ ⌈x2 * g - 1⌉ :=
    floor_le_ceil_sub_one (by exact mul_lt_mul_of_pos_right hx hgq)
  have hyy : ⌊y1 * g⌋ ≤ ⌈y2 * g - 1⌉ :=
    floor_le_ceil_sub_one (by exact mul_lt_mul_of_pos_right hy hgq)
  have hgz : (0 : ℤ) ≤ (g : ℤ) := by positivity
  exact add_le_add (mul_le_mul_of_nonneg_right hyy hgz) hxx

/-- C7 witness: concrete instance `g = 2`, box `(0, 0, 1/2, 1/2)`. -/
theorem C7_ul_le_lr_witness :
    (1 ≤ 2 ∧ (0 : ℚ) ≤ 0 ∧ (0 : ℚ) < 1/2 ∧ (1/2 : ℚ) ≤ 1) ∧
      (coordinate_to_patch_index ((0 : ℚ), (0 : ℚ), 1/2, 1/2) 2).1 ≤
        (coordinate_to_patch_index ((0 : ℚ), (0 : ℚ), 1/2, 1/2) 2).2 :=
  ⟨⟨by decide, by norm_num⟩,
    C7_ul_le_lr 2 0 0 (1/2) (1/2) (by decide) (by norm_num) (by norm_num) (by norm_num)
      (by norm_num) (by norm_num) (by norm_num)⟩

/-- C8: `patch_index_to_coordinate` returns the raw cell boundaries
(`x * cellSize` for the upper-left corner, `(x + 1) * cellSize` for the
lower-right corner, `cellSize = 1/g`) whenever `ul_idx = lr_idx` or the
two de-linearized corners share a row or a column, and returns the
coordinates offset inward by half a cell size exactly when the corners
differ in both row and column. -/
theorem C8_coordinate_cases (ul_idx lr_idx g : ℕ) (hg : 1 ≤ g) :
    ((ul_idx = lr_idx ∨ ul_idx % g = lr_idx % g ∨ ul_idx / g = lr_idx / g) →
      patch_index_to_coordinate ul_idx lr_idx g =
        (((ul_idx % g : ℕ) : ℚ) * (1/g), ((ul_idx / g : ℕ) : ℚ) * (1/g),
         (((lr_idx % g : ℕ) : ℚ) + 1) * (1/g), (((lr_idx / g : ℕ) : ℚ) + 1) * (1/g))) ∧
    ((ul_idx ≠ lr_idx ∧ ul_idx % g ≠ lr_idx % g ∧ ul_idx / g ≠ lr_idx / g) →
      patch_index_to_coordinate ul_idx lr_idx g =
        (((ul_idx % g : ℕ) : ℚ) * (1/g) + (1/g)/2, ((ul_idx / g : ℕ) : ℚ) * (1/g) + (1/g)/2,
         ((lr_idx % g : ℕ) : ℚ) * (1/g) + (1/g)/2, ((lr_idx / g : ℕ) : ℚ) * (1/g) + (1/g)/2)) := by
  constructor
  · intro h
    rw [patch_index_to_coordinate]
    by_cases h1 : ul_idx = lr_idx
    · rw [if_pos h1]
      simp only [Prod.mk.injEq, h1]
      refine ⟨by ring, by ring, by ring, by ring⟩
    · rw [if_neg h1, if_pos (by tauto)]
      simp only [Prod.mk.injEq]
      refine ⟨by ring, by ring, by ring, by ring⟩
  · rintro ⟨h1, h2, h3⟩
    rw [patch_index_to_coordinate, if_neg h1, if_neg (by tauto)]

/-- C8 witness: concrete instance `g = 3`, corners `0` and `4` (differing
in both row and column), and corners `0` and `1` (sharing a row). -/
theorem C8_coordinate_cases_witness :
    (1 ≤ 3) ∧
      (((0 : ℕ) = 4 ∨ 0 % 3 = 4 % 3 ∨ 0 / 3 = 4 / 3) →
        patch_index_to_coordinate 0 4 3 =
          (((0 % 3 : ℕ) : ℚ) * (1/3), ((0 / 3 : ℕ) : ℚ) * (1/3),
           (((4 % 3 : ℕ) : ℚ) + 1) * (1/3), (((4 / 3 : ℕ) : ℚ) + 1) * (1/3))) ∧
      (((0 : ℕ) ≠ 4 ∧ 0 % 3 ≠ 4 % 3 ∧ 0 / 3 ≠ 4 / 3) →
        patch_index_to_coordinate 0 4 3 =
          (((0 % 3 : ℕ) : ℚ) * (1/3) + (1/3)/2, ((0 / 3 : ℕ) : ℚ) * (1/3) + (1/3)/2,
           ((4 % 3 : ℕ) : ℚ) * (1/3) + (1/3)/2, ((4 / 3 : ℕ) : ℚ) * (1/3) + (1/3)/2)) :=
  ⟨by decide, C8_coordinate_cases 0 4 3 (by decide)⟩

/-- C9: `adjust_entity_positions` recomputes a span as the lengths of
`remove_special_fields` applied to the prefixes `text[:start]` and
`text[:end]`; in particular, on the example text the phrase `"a"` at raw
span `(8, 9)` is adjusted to `(0, 1)`, the stripped prefix up to
`</phrase>` being the one-character string `"a"`. -/
theorem C9_adjust_entity_positions :
    (∀ (name : List Char) (s e : ℕ) (t : List Char),
      adjust_entity_positions (name, (s, e)) t =
        (name, ((remove_special_fields (t.take s)).length,
                (remove_special_fields (t.take e)).length))) ∧
    remove_special_fields
        (("<phrase>a</phrase><object><patch_index_0000><patch_index_0000></object> b".toList).take 9) =
      ['a'] ∧
    adjust_entity_positions ("a".toList, (8, 9))
        "<phrase>a</phrase><object><patch_index_0000><patch_index_0000></object> b".toList =
      ("a".toList, (0, 1)) :=
  ⟨fun _ _ _ _ => rfl, by decide, by decide⟩

/-- C4 counterexample: on a bare `<object>` block written with zero-padded
patch tokens, the synthesized entity name is *not* the zero-padded literal
tag pair text claimed by the spec (the parsed integers are rendered
unpadded). -/
theorem C4_counterexample :
    (extract_entities_with_patch_indices
        "<object><patch_index_0012><patch_index_0034></object>".toList).map (fun e => e.1) ≠
      ["<patch_index_0012><patch_index_0034>".toList] := by
  decide

/-- C4 (amended): when the extraction scanner matches a bare `<object>`
block (no preceding phrase parses at the match position), it emits one
separate entity per extracted patch-index pair, each with the zero-width
span at the match's start position and with name
`f"<patch_index_{x}><patch_index_{y}>"` built from the parsed integers
(unpadded decimal rendering). -/
theorem C4_bare_object_entities (fuel pos : ℕ) (s ocontent rest : List Char)
    (hph : parsePhrase s = none) (hob : parseObject s = some (ocontent, rest)) :
    extractGo (fuel + 1) pos s =
      ((pySplitSep delimiterT ocontent).filterMap pairToBbox).map
          (fun bbox => (patchPairName bbox, (pos, pos), [bbox])) ++
        extractGo fuel (pos + (s.length - rest.length)) rest := by
  simp [extractGo, hph, hob, processMatch]

/-- C4 witness: the bare two-pair block. -/
theorem C4_bare_object_entities_witness :
    (parsePhrase "<object><patch_index_0012><patch_index_0034></delimiter_of_multi_objects/><patch_index_7><patch_index_0101></object>".toList = none ∧
     parseObject "<object><patch_index_0012><patch_index_0034></delimiter_of_multi_objects/><patch_index_7><patch_index_0101></object>".toList =
       some ("<patch_index_0012><patch_index_0034></delimiter_of_multi_objects/><patch_index_7><patch_index_0101>".toList, [])) ∧
    extractGo (5 + 1) 0 "<object><patch_index_0012><patch_index_0034></delimiter_of_multi_objects/><patch_index_7><patch_index_0101></object>".toList =
      ((pySplitSep delimiterT "<patch_index_0012><patch_index_0034></delimiter_of_multi_objects/><patch_index_7><patch_index_0101>".toList).filterMap pairToBbox).map
          (fun bbox => (patchPairName bbox, (0, 0), [bbox])) ++
        extractGo 5 (0 + ("<object><patch_index_0012><patch_index_0034></delimiter_of_multi_objects/><patch_index_7><patch_index_0101></object>".toList.length - ([] : List Char).length)) ([] : List Char) :=
  ⟨⟨by decide, by decide⟩,
    C4_bare_object_entities 5 0 _ _ [] (by decide) (by decide)⟩

/-- C10: on text containing no complete `<object>...</object>` block —
arbitrary malformed or partial tag sequences, including dangling or
truncated `<object>` openers, are allowed — the decode-side cleanup
returns the tag-stripped, whitespace-trimmed text and an empty entity list
(no exception: the embedding is a total function and no error value exists
on this path). -/
theorem C10_no_object_graceful (text : List Char)
    (h : hasObjectBlock text = false) :
    clean_text_and_extract_entities_with_bboxes text 32 =
      (pyStrip (remove_special_fields text), []) := by
  rw [clean_text_and_extract_entities_with_bboxes]
  rw [extract_entities_no_block h]
  rfl

/-- C10 witness: a truncated generation with a bare `<object>` opener
whose pair chain is interrupted before the closing tag, and a second
dangling `<object>` opener with a cut-off patch token. -/
theorem C10_no_object_graceful_witness :
    hasObjectBlock " An apple <object><patch_index_0012><patch_index_0034> oops</object> and <object><patch_index_12 truncated".toList = false ∧
      clean_text_and_extract_entities_with_bboxes
          " An apple <object><patch_index_0012><patch_index_0034> oops</object> and <object><patch_index_12 truncated".toList 32 =
        (pyStrip (remove_special_fields " An apple <object><patch_index_0012><patch_index_0034> oops</object> and <object><patch_index_12 truncated".toList), []) :=
  ⟨by decide, C10_no_object_graceful _ (by decide)⟩

set_option maxRecDepth 100000 in
/-- C1 counterexample: the encode-then-extract pipeline on
`"<phrase>cat</phrase> and <phrase>dog</phrase>"` with bbox groups
`[[(3,3)], [(10,12),(5,5)]]` does *not* recover the entity names
`"cat"` and `"dog"`: the spacing normalizer inserts a space after each
`<phrase>` tag, so the extracted names carry a leading space. -/
theorem C1_counterexample :
    (encode_pipeline_entities 32 1024 c1text (some c1groups)).map
        (fun es => es.map (fun e => e.1)) ≠
      some ["cat".toList, "dog".toList] := by
  intro h
  rw [show (encode_pipeline_entities 32 1024 c1text (some c1groups)).map
        (fun es => es.map (fun e => e.1)) =
      some [" cat".toList, " dog".toList] from rfl] at h
  exact absurd (Option.some.inj h) (by decide)

set_option maxRecDepth 100000 in
/-- C1 (amended): on the example text and bbox groups, the encoding
pipeline followed by extraction recovers exactly two entities, in order,
with names `" cat"` and `" dog"` (each carrying the one leading space the
spacing normalizer guarantees after a tag token) and with bbox lists
`[(3,3)]` and `[(10,12),(5,5)]` exactly as supplied. -/
theorem C1_roundtrip :
    (encode_pipeline_entities 32 1024 c1text (some c1groups)).map
        (fun es => es.map (fun e => (e.1, e.2.2))) =
      some [(" cat".toList, [(3, 3)]), (" dog".toList, [(10, 12), (5, 5)])] := by
  rfl

/-- C2 counterexample: with a *supplied but empty* bbox-group sequence and
a text containing one `<phrase>...</phrase>` match, the inserter raises no
error: it returns the text unchanged (the early return for
`bboxes is None or len(bboxes) == 0`). -/
theorem C2_counterexample :
    insert_patch_index_tokens 32 "<phrase>a</phrase>".toList (some []) =
      Except.ok "<phrase>a</phrase>".toList ∧
    (findPhraseSegments "<phrase>a</phrase>".toList).1.length = 1 :=
  ⟨rfl, by decide⟩

/-- C2 (amended): for every text and every *nonempty* supplied bbox-group
sequence, the inserter fails with the count-mismatch `ValueError` whenever
the number of `<phrase>...</phrase>` matches differs from the number of
bbox groups (an empty bbox-group sequence is returned unchanged by the
early-exit, exactly like `None`). -/
theorem C2_count_mismatch_error (text : List Char) (bs : List BboxGroup)
    (num_patches_per_side : ℕ) (hne : bs ≠ [])
    (hcount : (findPhraseSegments text).1.length ≠ bs.length) :
    insert_patch_index_tokens num_patches_per_side text (some bs) =
      Except.error "count mismatch between phrase pairs and bboxes".toList := by
  simp only [insert_patch_index_tokens]
  rw [if_neg (fun h => hne (List.length_eq_zero.mp h))]
  rw [if_pos hcount]

/-- C2 witness: one phrase, two bbox groups. -/
theorem C2_count_mismatch_error_witness :
    (([BboxGroup.none, BboxGroup.none] : List BboxGroup) ≠ [] ∧
      (findPhraseSegments "<phrase>a</phrase>".toList).1.length ≠
        ([BboxGroup.none, BboxGroup.none] : List BboxGroup).length) ∧
    insert_patch_index_tokens 32 "<phrase>a</phrase>".toList
        (some [BboxGroup.none, BboxGroup.none]) =
      Except.error "count mismatch between phrase pairs and bboxes".toList :=
  ⟨⟨by decide, by decide⟩,
    C2_count_mismatch_error _ _ 32 (by decide) (by decide)⟩

/-- C3 counterexample: on the literal 3-token input `[bos, placeholder,
eos]` (= `[0, 5, 2]`) with `num_image_tokens = 4`,
`first_image_token_id = 100` and a beginning-of-sequence token present,
the expansion step does *not* produce `[bos, 100, 101, 102, 103, eos]`,
and its mask is *longer* than the produced id sequence: the code replaces
the `num_image_tokens` ids *after* position `int(with_bos) + 1`, expecting
an input in which the placeholder run was already materialized. -/
theorem C3_counterexample :
    (expand_image_tokens [0, 5, 2] 4 100 true).1 ≠ [0, 100, 101, 102, 103, 2] ∧
    (expand_image_tokens [0, 5, 2] 4 100 true).2.length ≠
      (expand_image_tokens [0, 5, 2] 4 100 true).1.length := by
  decide

/-- C3 (amended): on an input of the shape the preprocessing step actually
produces — `[bos, boi] ++ fakes ++ rest` with `fakes` the
`num_image_tokens` placeholder copies and `rest` nonempty — the expansion
yields `[bos, boi] ++ [first .. first+n-1] ++ rest` together with the mask
`[0, 0] ++ [1]*n ++ [0] ++ [0]*(|rest|-1)`, which has the same length as
the produced id sequence. -/
theorem C3_expansion (bos boi first : ℕ) (fakes rest : List ℕ) (n : ℕ)
    (hf : fakes.length = n) (hr : rest ≠ []) :
    expand_image_tokens (bos :: boi :: (fakes ++ rest)) n first true =
      (bos :: boi :: ((List.range n).map (fun k => first + k) ++ rest),
       0 :: 0 :: (List.replicate n 1 ++ 0 :: List.replicate (rest.length - 1) 0)) := by
  subst hf
  obtain ⟨a, l, rfl⟩ : ∃ a l, rest = a :: l := by
    cases rest with
    | nil => exact absurd rfl hr
    | cons a l => exact ⟨a, l, rfl⟩
  have hdrop : (bos :: boi :: (fakes ++ a :: l)).drop (2 + fakes.length) = a :: l := by
    rw [Nat.add_comm 2 fakes.length]
    rw [show fakes.length + 2 = (fakes.length + 1) + 1 from rfl]
    rw [List.drop_succ_cons, List.drop_succ_cons, List.drop_left]
  simp only [expand_image_tokens]
  rw [Prod.mk.injEq]
  constructor
  · simp only [if_pos, show ((if (true : Bool) then 1 else 0) + 1 : ℕ) = 2 from rfl]
    rw [hdrop]
    simp
  · simp only [if_pos, show ((if (true : Bool) then 1 else 0) + 1 : ℕ) = 2 from rfl]
    rw [hdrop]
    have hsub : ((bos :: boi :: (fakes ++ a :: l)).take 2 ++
        (List.range fakes.length).map (fun k => first + k) ++ a :: l).length -
        ((0 : ℕ) :: ([0] ++ List.replicate fakes.length 1 ++ [0])).length = l.length := by
      simp
      omega
    rw [hsub]
    simp [List.replicate_succ]

/-- C3 witness: `[0, 9] ++ [5,5,5,5] ++ [10, 2]` with `n = 4`,
`first = 100`. -/
theorem C3_expansion_witness :
    (([5, 5, 5, 5] : List ℕ).length = 4 ∧ ([10, 2] : List ℕ) ≠ []) ∧
    expand_image_tokens (0 :: 9 :: (([5, 5, 5, 5] : List ℕ) ++ [10, 2])) 4 100 true =
      (0 :: 9 :: ((List.range 4).map (fun k => 100 + k) ++ [10, 2]),
       0 :: 0 :: (List.replicate 4 1 ++ 0 :: List.replicate (([10, 2] : List ℕ).length - 1) 0)) :=
  ⟨⟨by decide, by decide⟩, C3_expansion 0 9 100 [5, 5, 5, 5] [10, 2] 4 (by decide) (by decide)⟩

/-- C5 counterexample: idempotence fails for an arbitrary tag vocabulary:
with `V = {"ab", "ba"}` and `t = "b a\t ba"` the first pass yields
`"b aba"` (the rstrip before `"ba"` creates a fresh `"ab"` occurrence), and
the second pass yields `"bab a"`. -/
theorem C5_counterexample :
    add_remove_spaces_around_tag_tokens ["ab".toList, "ba".toList]
        (add_remove_spaces_around_tag_tokens ["ab".toList, "ba".toList] "b a\t ba".toList) ≠
      add_remove_spaces_around_tag_tokens ["ab".toList, "ba".toList] "b a\t ba".toList := by
  decide

/-- C5 (amended): the tag spacing normalizer is idempotent for every text
over every *well-behaved* tag vocabulary — one whose tags all start with
`<`, contain `<` nowhere else, and contain no whitespace (`GoodVocab`).
The processor's actual vocabulary (tag tokens plus the
`<patch_index_dddd>` tokens) is of this shape. -/
theorem C5_normalize_idempotent (V : List (List Char)) (text : List Char)
    (hV : GoodVocab V) :
    add_remove_spaces_around_tag_tokens V (add_remove_spaces_around_tag_tokens V text) =
      add_remove_spaces_around_tag_tokens V text :=
  normalize_idem_of_goodVocab V text hV

/-- C5 witness: the base tag vocabulary and a concrete text. -/
theorem C5_normalize_idempotent_witness :
    GoodVocab tagTokensBase ∧
      add_remove_spaces_around_tag_tokens tagTokensBase
          (add_remove_spaces_around_tag_tokens tagTokensBase
            "<object> hi  <phrase>x</phrase>".toList) =
        add_remove_spaces_around_tag_tokens tagTokensBase
          "<object> hi  <phrase>x</phrase>".toList :=
  ⟨by unfold GoodVocab; decide, C5_normalize_idempotent _ _ (by unfold GoodVocab; decide)⟩
